import Mathlib

/-!
Shallow embedding of the RESP decoder in `src/deserializer.rs` (crate
`resp-parser`).  The byte source (`R: Read` in the Rust code, always a byte
slice in the library's tests and wrappers) is modelled as a `List Nat` of
bytes; every parsing routine takes the remaining stream and returns the
parsed result together with the stream left over, mirroring the mutable
`Deserialer` state.  Rust standard-library functions used by the decoder
(`String::from_utf8`, `str::parse::<i64>`) are modelled from their documented
semantics (`utf8Decode`, `parseI64`).  The mutual recursion between `parse`
and `parse_array` is expressed with a fuel parameter that only the array
recursion consumes; `parse_fuel_isSome` below proves that `length + 1` fuel
always suffices, so the fuel-free wrappers (`parse_total`, `from_stream`,
`from_bytes`, `from_string`) are total functions equal to the Rust entry
points.
-/

deriving instance DecidableEq for Except

namespace Resp

/-- A byte stream, each element one byte (0 ≤ b < 256 for real inputs). -/
abbrev Bytes := List Nat

/-- Model of `enum Error` (deserializer.rs lines 7-12).  `ioError` carries no
payload here: a pure byte-list source never reports a read failure. -/
inductive Error where
  | ioError : Error
  | invalidValue : String → Error
  | endOfStream : Error
  deriving DecidableEq

/-- Model of `enum Value` (deserializer.rs lines 14-21). -/
inductive Value where
  | string : String → Value
  | error : String → Value
  | integer : Int → Value
  | bulkString : List Nat → Value
  | array : List Value → Value

/-- Decimal-digit byte, i.e. ASCII `0`-`9`. -/
def isDigitByte (b : Nat) : Prop := 48 ≤ b ∧ b ≤ 57

instance (b : Nat) : Decidable (isDigitByte b) := by
  unfold isDigitByte; infer_instance

/-- Numeric value of a run of ASCII digit bytes, most significant first,
accumulated exactly as a base-10 parser does. -/
def decimalValAux (acc : Nat) : Bytes → Nat
  | [] => acc
  | d :: ds => decimalValAux (acc * 10 + (d - 48)) ds

/-- Numeric value of a decimal digit-byte run. -/
def decimalVal (ds : Bytes) : Nat := decimalValAux 0 ds

/-- Modelled from the documented semantics of Rust `str::parse::<i64>`
(`i64::from_str`): an optional leading `+` or `-` sign followed by at least
one ASCII digit, rejected when the resulting value overflows the i64 range.
The accumulated magnitude grows monotonically, so the final range test is
equivalent to Rust's per-step checked arithmetic.  The function receives the
UTF-8 bytes of the string, which is how `str` stores it. -/
def parseI64Core (sign : Int) (ds : Bytes) : Option Int :=
  if ds = [] then none
  else if ∀ d ∈ ds, isDigitByte d then
    if -(2 ^ 63) ≤ sign * (decimalVal ds : Int) ∧
        sign * (decimalVal ds : Int) ≤ 2 ^ 63 - 1 then
      some (sign * (decimalVal ds : Int))
    else none
  else none

/-- Sign dispatch of Rust `str::parse::<i64>`: byte 45 is `-`, byte 43 is `+`. -/
def parseI64 (bs : Bytes) : Option Int :=
  match bs with
  | b :: ds =>
    if b = 45 then parseI64Core (-1) ds
    else if b = 43 then parseI64Core 1 ds
    else parseI64Core 1 (b :: ds)
  | [] => parseI64Core 1 []

mutual

/-- Modelled from the documented semantics of Rust `String::from_utf8`:
standard UTF-8 validation (continuation-byte ranges, no overlong forms, no
surrogates, max U+10FFFF), returning the decoded scalar values.  Returns
`none` exactly when the byte sequence is not valid UTF-8.  The 2-, 3- and
4-byte sequence forms are split into the mutual helpers below, dispatched on
the leading byte. -/
def utf8Decode : Bytes → Option (List Char)
  | [] => some []
  | b :: rest =>
    if b ≤ 0x7F then
      (utf8Decode rest).map (fun cs => Char.ofNat b :: cs)
    else if 0xC2 ≤ b ∧ b ≤ 0xDF then utf8Decode2 b rest
    else if 0xE0 ≤ b ∧ b ≤ 0xEF then utf8Decode3 b rest
    else if 0xF0 ≤ b ∧ b ≤ 0xF4 then utf8Decode4 b rest
    else none

/-- Continuation of a 2-byte UTF-8 sequence with leading byte `b`. -/
def utf8Decode2 (b : Nat) : Bytes → Option (List Char)
  | b1 :: rest1 =>
    if 0x80 ≤ b1 ∧ b1 ≤ 0xBF then
      (utf8Decode rest1).map
        (fun cs => Char.ofNat ((b - 0xC0) * 0x40 + (b1 - 0x80)) :: cs)
    else none
  | [] => none

/-- Continuation of a 3-byte UTF-8 sequence with leading byte `b`; the bounds
on the first continuation byte exclude overlong forms (`E0`) and surrogates
(`ED`). -/
def utf8Decode3 (b : Nat) : Bytes → Option (List Char)
  | b1 :: b2 :: rest2 =>
    if (if b = 0xE0 then 0xA0 else 0x80) ≤ b1 ∧
        b1 ≤ (if b = 0xED then 0x9F else 0xBF) ∧ 0x80 ≤ b2 ∧ b2 ≤ 0xBF then
      (utf8Decode rest2).map
        (fun cs =>
          Char.ofNat ((b - 0xE0) * 0x1000 + (b1 - 0x80) * 0x40 + (b2 - 0x80)) :: cs)
    else none
  | _ => none

/-- Continuation of a 4-byte UTF-8 sequence with leading byte `b`; the bounds
on the first continuation byte exclude overlong forms (`F0`) and code points
above U+10FFFF (`F4`). -/
def utf8Decode4 (b : Nat) : Bytes → Option (List Char)
  | b1 :: b2 :: b3 :: rest3 =>
    if (if b = 0xF0 then 0x90 else 0x80) ≤ b1 ∧
        b1 ≤ (if b = 0xF4 then 0x8F else 0xBF) ∧
        0x80 ≤ b2 ∧ b2 ≤ 0xBF ∧ 0x80 ≤ b3 ∧ b3 ≤ 0xBF then
      (utf8Decode rest3).map
        (fun cs =>
          Char.ofNat
            ((b - 0xF0) * 0x40000 + (b1 - 0x80) * 0x1000 +
              (b2 - 0x80) * 0x40 + (b3 - 0x80)) :: cs)
    else none
  | _ => none

end

/-- The message built by `format!` in `parse_integer` (deserializer.rs line
84); `Char.ofNat 39` is the apostrophe of the source text. -/
def cant_parse_msg (s : String) : String :=
  ("Can") ++ String.mk [Char.ofNat 39] ++ ("t parse `") ++ s ++ ("` as integer")

/-- Model of `peek_byte` (deserializer.rs lines 32-38): read one byte, `EndOfStream`
when none is available.  A byte-slice source never yields `IoError`. -/
def peek_byte : Bytes → Except Error (Nat × Bytes)
  | [] => .error .endOfStream
  | b :: rest => .ok (b, rest)

/-- Model of `check_ending` (deserializer.rs lines 40-47): the next byte must be
`\n` (10); the remaining stream is returned in place of Rust's unit. -/
def check_ending (s : Bytes) : Except Error Bytes :=
  match peek_byte s with
  | .error e => .error e
  | .ok (c, rest) =>
    if c ≠ 10 then .error (.invalidValue ("Integer does not end with \\r\\n"))
    else .ok rest

/-- The accumulation loop of `parse_string` (deserializer.rs lines 50-67):
push bytes until `\r` (13), reject a bare `\n` (10). -/
def parse_string_go (acc : Bytes) : Bytes → Except Error (Bytes × Bytes)
  | [] => .error .endOfStream
  | 13 :: rest =>
    match check_ending rest with
    | .error e => .error e
    | .ok rest1 => .ok (acc, rest1)
  | 10 :: _ => .error (.invalidValue ("String contain \\n"))
  | c :: rest => parse_string_go (acc ++ [c]) rest

/-- Model of `parse_string` (deserializer.rs lines 49-68): accumulate until
`\r\n`, then decode the buffer as UTF-8. -/
def parse_string (s : Bytes) : Except Error (String × Bytes) :=
  match parse_string_go [] s with
  | .error e => .error e
  | .ok (buf, rest) =>
    match utf8Decode buf with
    | some cs => .ok (String.mk cs, rest)
    | none => .error (.invalidValue ("Non UTF-8 integer encoding"))

/-- Model of `parse_error` (deserializer.rs lines 70-72): delegates to
`parse_string`. -/
def parse_error (s : Bytes) : Except Error (String × Bytes) :=
  parse_string s

/-- The accumulation loop of `parse_integer` (deserializer.rs lines 76-93):
push every byte until `\r` (13); unlike `parse_string` there is no `\n` case. -/
def parse_integer_go (acc : Bytes) : Bytes → Except Error (Bytes × Bytes)
  | [] => .error .endOfStream
  | 13 :: rest =>
    match check_ending rest with
    | .error e => .error e
    | .ok rest1 => .ok (acc, rest1)
  | c :: rest => parse_integer_go (acc ++ [c]) rest

/-- Model of `parse_integer` (deserializer.rs lines 74-94): accumulate until
`\r\n`, decode as UTF-8, parse as base-10 i64. -/
def parse_integer (s : Bytes) : Except Error (Int × Bytes) :=
  match parse_integer_go [] s with
  | .error e => .error e
  | .ok (buf, rest) =>
    match utf8Decode buf with
    | none => .error (.invalidValue ("Non UTF-8 integer encoding"))
    | some cs =>
      match parseI64 buf with
      | none => .error (.invalidValue (cant_parse_msg (String.mk cs)))
      | some v => .ok (v, rest)

/-- The `for _ in 0..length` payload loop of `parse_bulk` (deserializer.rs
lines 99-102): read exactly `n` raw bytes. -/
def read_bytes : Nat → Bytes → Except Error (Bytes × Bytes)
  | 0, s => .ok ([], s)
  | n + 1, s =>
    match peek_byte s with
    | .error e => .error e
    | .ok (c, rest) =>
      match read_bytes n rest with
      | .error e => .error e
      | .ok (cs, rest1) => .ok (c :: cs, rest1)

/-- Model of `parse_bulk` (deserializer.rs lines 96-110): declared length from
`parse_integer`, `Int.toNat` giving the iteration count of `for _ in
0..length` (zero for negative lengths), then a mandatory `\r\n`. -/
def parse_bulk (s : Bytes) : Except Error (Bytes × Bytes) :=
  match parse_integer s with
  | .error e => .error e
  | .ok (length, s1) =>
    match read_bytes length.toNat s1 with
    | .error e => .error e
    | .ok (payload, s2) =>
      match peek_byte s2 with
      | .error e => .error e
      | .ok (c, s3) =>
        if c ≠ 13 then .error (.invalidValue ("Integer does not end with \\r\\n"))
        else
          match check_ending s3 with
          | .error e => .error e
          | .ok s4 => .ok (payload, s4)

/-- The element loop of `parse_array` (deserializer.rs lines 115-118),
parameterised by the recursive parser `p`; `none` is the out-of-fuel
sentinel threaded through from `p`. -/
def parse_array_go (p : Bytes → Option (Except Error (Value × Bytes))) :
    Nat → Bytes → Option (Except Error (List Value × Bytes))
  | 0, s => some (.ok ([], s))
  | n + 1, s =>
    match p s with
    | none => none
    | some (.error e) => some (.error e)
    | some (.ok (v, s1)) =>
      match parse_array_go p n s1 with
      | none => none
      | some (.error e) => some (.error e)
      | some (.ok (vs, s2)) => some (.ok (v :: vs, s2))

/-- Model of `parse_array` (deserializer.rs lines 112-120): declared count
from `parse_integer`, then `Int.toNat length` recursive `parse` calls. -/
def parse_array (p : Bytes → Option (Except Error (Value × Bytes)))
    (s : Bytes) : Option (Except Error (List Value × Bytes)) :=
  match parse_integer s with
  | .error e => some (.error e)
  | .ok (length, s1) => parse_array_go p length.toNat s1

/-- One dispatch step of `parse` (deserializer.rs lines 122-131): byte 43 `+`,
45 `-`, 58 `:`, 36 `$`, 42 `*`.  Note that tag 45 wraps the result of
`parse_error` in `Value.string`, exactly as line 125 of the source does. -/
def parse_one (p : Bytes → Option (Except Error (Value × Bytes)))
    (s : Bytes) : Option (Except Error (Value × Bytes)) :=
  match peek_byte s with
  | .error e => some (.error e)
  | .ok (c, rest) =>
    if c = 43 then some ((parse_string rest).map (fun r => (Value.string r.1, r.2)))
    else if c = 45 then some ((parse_error rest).map (fun r => (Value.string r.1, r.2)))
    else if c = 58 then some ((parse_integer rest).map (fun r => (Value.integer r.1, r.2)))
    else if c = 36 then some ((parse_bulk rest).map (fun r => (Value.bulkString r.1, r.2)))
    else if c = 42 then
      match parse_array p rest with
      | none => none
      | some (.error e) => some (.error e)
      | some (.ok (vs, s2)) => some (.ok (Value.array vs, s2))
    else some (.error (.invalidValue (("Invalid character ") ++ Nat.repr c)))

/-- `parse` with fuel bounding the array-nesting recursion depth; `none`
means the fuel ran out, which `parse_fuel_isSome` below shows never happens
once the fuel exceeds the stream length. -/
def parse : Nat → Bytes → Option (Except Error (Value × Bytes))
  | 0, _ => none
  | fuel + 1, s => parse_one (parse fuel) s

/-- The total top-level parser: `parse` run with the always-sufficient fuel
`length + 1`.  The `getD` default is dead code by `parse_fuel_isSome`. -/
def parse_total (s : Bytes) : Except Error (Value × Bytes) :=
  (parse (s.length + 1) s).getD (.error .endOfStream)

/-- Model of `from_stream` (deserializer.rs lines 134-137): run `parse` on the
stream and return the value; the consumed position (our remainder component)
is internal to the `Deserialer`. -/
def from_stream (s : Bytes) : Except Error Value :=
  (parse_total s).map (fun r => r.1)

/-- Model of `from_bytes` (deserializer.rs lines 139-141). -/
def from_bytes (s : Bytes) : Except Error Value :=
  from_stream s

/-- UTF-8 encoding of one scalar value, used to model `str::as_bytes`. -/
def charBytes (n : Nat) : List Nat :=
  if n < 0x80 then [n]
  else if n < 0x800 then [0xC0 + n / 0x40, 0x80 + n % 0x40]
  else if n < 0x10000 then
    [0xE0 + n / 0x1000, 0x80 + (n / 0x40) % 0x40, 0x80 + n % 0x40]
  else
    [0xF0 + n / 0x40000, 0x80 + (n / 0x1000) % 0x40, 0x80 + (n / 0x40) % 0x40,
      0x80 + n % 0x40]

/-- Modelled from Rust `str::as_bytes`: the UTF-8 bytes of a string. -/
def strBytes (s : String) : Bytes :=
  s.data.foldr (fun c acc => charBytes c.toNat ++ acc) []

/-- Model of `from_string` (deserializer.rs lines 143-145): decode the UTF-8
bytes of the text. -/
def from_string (s : String) : Except Error Value :=
  from_bytes (strBytes s)

/-- A value tree containing no `Value.error` node at any nesting level. -/
inductive ErrorFreeValue : Value → Prop where
  | string : ∀ s, ErrorFreeValue (.string s)
  | integer : ∀ n, ErrorFreeValue (.integer n)
  | bulkString : ∀ bs, ErrorFreeValue (.bulkString bs)
  | array : ∀ vs, (∀ v ∈ vs, ErrorFreeValue v) → ErrorFreeValue (.array vs)

/-- Grammar of integer literals as the spec words it (C5, amended): an
optional leading sign byte (45 `-`, or 43 `+`) followed by at least one
decimal digit. -/
def signed_digit_run (bs : Bytes) : Prop :=
  ∃ ds, (bs = ds ∨ bs = 45 :: ds ∨ bs = 43 :: ds) ∧ ds ≠ [] ∧ ∀ d ∈ ds, isDigitByte d

/-- Mathematical value of an integer literal, spec side. -/
def literal_value (bs : Bytes) : Int :=
  match bs with
  | b :: ds =>
    if b = 45 then -(decimalVal ds : Int)
    else if b = 43 then (decimalVal ds : Int)
    else (decimalVal (b :: ds) : Int)
  | [] => 0

/-! ### Behaviour of the accumulation loops on decomposed inputs -/

theorem parse_string_go_cons (acc : Bytes) (c : Nat) (rest : Bytes)
    (h13 : c ≠ 13) (h10 : c ≠ 10) :
    parse_string_go acc (c :: rest) = parse_string_go (acc ++ [c]) rest := by
  simp [parse_string_go, h13, h10]

theorem parse_integer_go_cons (acc : Bytes) (c : Nat) (rest : Bytes)
    (h13 : c ≠ 13) :
    parse_integer_go acc (c :: rest) = parse_integer_go (acc ++ [c]) rest := by
  simp [parse_integer_go, h13]

theorem parse_string_go_app (b acc s : Bytes)
    (h : ∀ x ∈ b, x ≠ 13 ∧ x ≠ 10) :
    parse_string_go acc (b ++ 13 :: 10 :: s) = .ok (acc ++ b, s) := by
  induction b generalizing acc with
  | nil => simp [parse_string_go, check_ending, peek_byte]
  | cons c b ih =>
    obtain ⟨h13, h10⟩ := h c (List.mem_cons_self c b)
    rw [List.cons_append, parse_string_go_cons _ _ _ h13 h10,
      ih _ (fun x hx => h x (List.mem_cons_of_mem c hx))]
    simp

theorem parse_string_go_newline (b acc s : Bytes)
    (h : ∀ x ∈ b, x ≠ 13 ∧ x ≠ 10) :
    parse_string_go acc (b ++ 10 :: s) =
      .error (.invalidValue ("String contain \\n")) := by
  induction b generalizing acc with
  | nil => simp [parse_string_go]
  | cons c b ih =>
    obtain ⟨h13, h10⟩ := h c (List.mem_cons_self c b)
    rw [List.cons_append, parse_string_go_cons _ _ _ h13 h10,
      ih _ (fun x hx => h x (List.mem_cons_of_mem c hx))]

theorem parse_string_go_badcr (b acc s : Bytes) (c : Nat) (hc : c ≠ 10)
    (h : ∀ x ∈ b, x ≠ 13 ∧ x ≠ 10) :
    parse_string_go acc (b ++ 13 :: c :: s) =
      .error (.invalidValue ("Integer does not end with \\r\\n")) := by
  induction b generalizing acc with
  | nil => simp [parse_string_go, check_ending, peek_byte, hc]
  | cons d b ih =>
    obtain ⟨h13, h10⟩ := h d (List.mem_cons_self d b)
    rw [List.cons_append, parse_string_go_cons _ _ _ h13 h10,
      ih _ (fun x hx => h x (List.mem_cons_of_mem d hx))]

theorem parse_integer_go_app (b acc s : Bytes)
    (h : ∀ x ∈ b, x ≠ 13) :
    parse_integer_go acc (b ++ 13 :: 10 :: s) = .ok (acc ++ b, s) := by
  induction b generalizing acc with
  | nil => simp [parse_integer_go, check_ending, peek_byte]
  | cons c b ih =>
    rw [List.cons_append, parse_integer_go_cons _ _ _ (h c (List.mem_cons_self c b)),
      ih _ (fun x hx => h x (List.mem_cons_of_mem c hx))]
    simp

/-! ### ASCII inputs are valid UTF-8; literal runs parse as i64 -/

theorem utf8Decode_cons_ascii (c : Nat) (b : Bytes) (hc : c ≤ 0x7F) :
    utf8Decode (c :: b) = (utf8Decode b).map (fun cs => Char.ofNat c :: cs) := by
  rw [utf8Decode]
  simp only [if_pos hc]

theorem utf8Decode_isSome_of_ascii (b : Bytes) (h : ∀ x ∈ b, x < 128) :
    ∃ cs, utf8Decode b = some cs := by
  induction b with
  | nil => exact ⟨[], rfl⟩
  | cons c b ih =>
    obtain ⟨cs, hcs⟩ := ih (fun x hx => h x (List.mem_cons_of_mem c hx))
    have hc : c ≤ 0x7F := by
      have := h c (List.mem_cons_self c b); omega
    exact ⟨Char.ofNat c :: cs, by rw [utf8Decode_cons_ascii c b hc, hcs]; rfl⟩

theorem digit_byte_props {d : Nat} (h : isDigitByte d) :
    d < 128 ∧ d ≠ 13 ∧ d ≠ 10 ∧ d ≠ 45 ∧ d ≠ 43 := by
  obtain ⟨h1, h2⟩ := h
  omega

theorem parseI64Core_pos (ds : Bytes) (hne : ds ≠ [])
    (hd : ∀ d ∈ ds, isDigitByte d) (hr : decimalVal ds < 2 ^ 63) :
    parseI64Core 1 ds = some ((decimalVal ds : Int)) := by
  rw [parseI64Core, if_neg hne, if_pos hd, if_pos (by constructor <;> omega)]
  simp

theorem parseI64_digits (ds : Bytes) (hne : ds ≠ [])
    (hd : ∀ d ∈ ds, isDigitByte d) (hr : decimalVal ds < 2 ^ 63) :
    parseI64 ds = some ((decimalVal ds : Int)) := by
  match ds, hne with
  | d :: ds, _ =>
    obtain ⟨-, -, -, h45, h43⟩ := digit_byte_props (hd d (List.mem_cons_self d ds))
    rw [show parseI64 (d :: ds) = parseI64Core 1 (d :: ds) by
      simp [parseI64, h45, h43]]
    exact parseI64Core_pos _ (by simp) hd hr

theorem parseI64_neg_digits (ds : Bytes) (hne : ds ≠ [])
    (hd : ∀ d ∈ ds, isDigitByte d) (hr : decimalVal ds ≤ 2 ^ 63) :
    parseI64 (45 :: ds) = some (-(decimalVal ds : Int)) := by
  rw [show parseI64 (45 :: ds) = parseI64Core (-1) ds by simp [parseI64],
    parseI64Core, if_neg hne, if_pos hd, if_pos (by constructor <;> omega)]
  simp

/-! ### `parse_integer` on well-formed decimal literals -/

theorem parse_integer_digits (ds s : Bytes) (hne : ds ≠ [])
    (hd : ∀ d ∈ ds, isDigitByte d) (hr : decimalVal ds < 2 ^ 63) :
    parse_integer (ds ++ 13 :: 10 :: s) = .ok ((decimalVal ds : Int), s) := by
  obtain ⟨cs, hcs⟩ := utf8Decode_isSome_of_ascii ds
    (fun x hx => (digit_byte_props (hd x hx)).1)
  rw [parse_integer,
    parse_integer_go_app ds [] s (fun x hx => (digit_byte_props (hd x hx)).2.1)]
  simp only [List.nil_append, hcs, parseI64_digits ds hne hd hr]

theorem parse_integer_neg_digits (ds s : Bytes) (hne : ds ≠ [])
    (hd : ∀ d ∈ ds, isDigitByte d) (hr : decimalVal ds ≤ 2 ^ 63) :
    parse_integer (45 :: ds ++ 13 :: 10 :: s) = .ok (-(decimalVal ds : Int), s) := by
  have h13 : ∀ x ∈ 45 :: ds, x ≠ 13 := by
    intro x hx
    rcases List.mem_cons.mp hx with h | h
    · omega
    · exact (digit_byte_props (hd x h)).2.1
  have hascii : ∀ x ∈ 45 :: ds, x < 128 := by
    intro x hx
    rcases List.mem_cons.mp hx with h | h
    · omega
    · exact (digit_byte_props (hd x h)).1
  obtain ⟨cs, hcs⟩ := utf8Decode_isSome_of_ascii _ hascii
  rw [parse_integer, show (45 :: ds) ++ 13 :: 10 :: s = (45 :: ds) ++ 13 :: 10 :: s from rfl,
    parse_integer_go_app (45 :: ds) [] s h13]
  simp only [List.nil_append, hcs, parseI64_neg_digits ds hne hd hr]

/-! ### Every routine strictly consumes input on success -/

theorem peek_byte_len {s : Bytes} {c : Nat} {t : Bytes}
    (h : peek_byte s = .ok (c, t)) : t.length < s.length := by
  cases s with
  | nil => simp [peek_byte] at h
  | cons b rest =>
    simp only [peek_byte, Except.ok.injEq, Prod.mk.injEq] at h
    obtain ⟨-, rfl⟩ := h
    simp

theorem check_ending_len {s t : Bytes} (h : check_ending s = .ok t) :
    t.length < s.length := by
  cases s with
  | nil => simp [check_ending, peek_byte] at h
  | cons b rest =>
    simp only [check_ending, peek_byte] at h
    split at h
    · exact absurd h (by simp)
    · simp only [Except.ok.injEq] at h
      subst h
      simp

theorem parse_string_go_len :
    ∀ {s : Bytes} {acc b t : Bytes}, parse_string_go acc s = .ok (b, t) →
      t.length < s.length := by
  intro s
  induction s with
  | nil => intro acc b t h; simp [parse_string_go] at h
  | cons c rest ih =>
    intro acc b t h
    by_cases hc13 : c = 13
    · subst hc13
      simp only [parse_string_go] at h
      cases hce : check_ending rest with
      | error e => rw [hce] at h; exact absurd h (by simp)
      | ok r1 =>
        rw [hce] at h
        simp only [Except.ok.injEq, Prod.mk.injEq] at h
        obtain ⟨-, rfl⟩ := h
        exact Nat.lt_trans (check_ending_len hce) (by simp)
    · by_cases hc10 : c = 10
      · subst hc10; simp [parse_string_go] at h
      · rw [parse_string_go_cons _ _ _ hc13 hc10] at h
        exact Nat.lt_trans (ih h) (by simp)

theorem parse_string_len {s : Bytes} {str : String} {t : Bytes}
    (h : parse_string s = .ok (str, t)) : t.length < s.length := by
  cases hgo : parse_string_go [] s with
  | error e => simp [parse_string, hgo] at h
  | ok br =>
    obtain ⟨buf, rest⟩ := br
    cases hu : utf8Decode buf with
    | none => simp [parse_string, hgo, hu] at h
    | some cs =>
      simp only [parse_string, hgo, hu, Except.ok.injEq, Prod.mk.injEq] at h
      obtain ⟨-, rfl⟩ := h
      exact parse_string_go_len hgo

theorem parse_integer_go_len :
    ∀ {s : Bytes} {acc b t : Bytes}, parse_integer_go acc s = .ok (b, t) →
      t.length < s.length := by
  intro s
  induction s with
  | nil => intro acc b t h; simp [parse_integer_go] at h
  | cons c rest ih =>
    intro acc b t h
    by_cases hc13 : c = 13
    · subst hc13
      simp only [parse_integer_go] at h
      cases hce : check_ending rest with
      | error e => rw [hce] at h; exact absurd h (by simp)
      | ok r1 =>
        rw [hce] at h
        simp only [Except.ok.injEq, Prod.mk.injEq] at h
        obtain ⟨-, rfl⟩ := h
        exact Nat.lt_trans (check_ending_len hce) (by simp)
    · rw [parse_integer_go_cons _ _ _ hc13] at h
      exact Nat.lt_trans (ih h) (by simp)

theorem parse_integer_len {s : Bytes} {v : Int} {t : Bytes}
    (h : parse_integer s = .ok (v, t)) : t.length < s.length := by
  cases hgo : parse_integer_go [] s with
  | error e => simp [parse_integer, hgo] at h
  | ok br =>
    obtain ⟨buf, rest⟩ := br
    cases hu : utf8Decode buf with
    | none => simp [parse_integer, hgo, hu] at h
    | some cs =>
      cases hp : parseI64 buf with
      | none => simp [parse_integer, hgo, hu, hp] at h
      | some w =>
        simp only [parse_integer, hgo, hu, hp, Except.ok.injEq,
          Prod.mk.injEq] at h
        obtain ⟨-, rfl⟩ := h
        exact parse_integer_go_len hgo

theorem read_bytes_len :
    ∀ {n : Nat} {s bs t : Bytes}, read_bytes n s = .ok (bs, t) →
      t.length ≤ s.length := by
  intro n
  induction n with
  | zero =>
    intro s bs t h
    simp only [read_bytes, Except.ok.injEq, Prod.mk.injEq] at h
    obtain ⟨-, rfl⟩ := h
    exact Nat.le_refl _
  | succ n ih =>
    intro s bs t h
    cases s with
    | nil => simp [read_bytes, peek_byte] at h
    | cons b rest =>
      simp only [read_bytes, peek_byte] at h
      cases hrb : read_bytes n rest with
      | error e => rw [hrb] at h; exact absurd h (by simp)
      | ok cr =>
        obtain ⟨cs, rest1⟩ := cr
        rw [hrb] at h
        simp only [Except.ok.injEq, Prod.mk.injEq] at h
        obtain ⟨-, rfl⟩ := h
        exact Nat.le_trans (ih hrb) (by simp)

theorem parse_bulk_len {s : Bytes} {payload t : Bytes}
    (h : parse_bulk s = .ok (payload, t)) : t.length < s.length := by
  cases hint : parse_integer s with
  | error e => simp [parse_bulk, hint] at h
  | ok ls =>
    obtain ⟨len, s1⟩ := ls
    cases hrb : read_bytes len.toNat s1 with
    | error e => simp [parse_bulk, hint, hrb] at h
    | ok ps =>
      obtain ⟨pl, s2⟩ := ps
      cases hpk : peek_byte s2 with
      | error e => simp [parse_bulk, hint, hrb, hpk] at h
      | ok cr =>
        obtain ⟨c, s3⟩ := cr
        simp only [parse_bulk, hint, hrb, hpk] at h
        split at h
        · exact absurd h (by simp)
        · cases hce : check_ending s3 with
          | error e => rw [hce] at h; exact absurd h (by simp)
          | ok s4 =>
            rw [hce] at h
            simp only [Except.ok.injEq, Prod.mk.injEq] at h
            obtain ⟨-, rfl⟩ := h
            have := check_ending_len hce
            have := peek_byte_len hpk
            have := read_bytes_len hrb
            have := parse_integer_len hint
            omega

theorem parse_array_go_le
    {p : Bytes → Option (Except Error (Value × Bytes))}
    (hp : ∀ t v r, p t = some (.ok (v, r)) → r.length < t.length) :
    ∀ {n : Nat} {s : Bytes} {vs : List Value} {t : Bytes},
      parse_array_go p n s = some (.ok (vs, t)) → t.length ≤ s.length := by
  intro n
  induction n with
  | zero =>
    intro s vs t h
    simp only [parse_array_go, Option.some.injEq, Except.ok.injEq,
      Prod.mk.injEq] at h
    obtain ⟨-, rfl⟩ := h
    exact Nat.le_refl _
  | succ n ih =>
    intro s vs t h
    cases hps : p s with
    | none => simp [parse_array_go, hps] at h
    | some r1 =>
      cases r1 with
      | error e => simp [parse_array_go, hps] at h
      | ok vr =>
        obtain ⟨v, s1⟩ := vr
        cases hgo : parse_array_go p n s1 with
        | none => simp [parse_array_go, hps, hgo] at h
        | some r2 =>
          cases r2 with
          | error e => simp [parse_array_go, hps, hgo] at h
          | ok vt =>
            obtain ⟨ws, s2⟩ := vt
            simp only [parse_array_go, hps, hgo, Option.some.injEq,
              Except.ok.injEq, Prod.mk.injEq] at h
            obtain ⟨-, rfl⟩ := h
            exact Nat.le_trans (ih hgo) (Nat.le_of_lt (hp _ _ _ hps))

theorem parse_len :
    ∀ {fuel : Nat} {s : Bytes} {v : Value} {t : Bytes},
      parse fuel s = some (.ok (v, t)) → t.length < s.length := by
  intro fuel
  induction fuel with
  | zero => intro s v t h; simp [parse] at h
  | succ fuel ih =>
    intro s v t h
    cases hpk : peek_byte s with
    | error e => simp [parse, parse_one, hpk] at h
    | ok cr =>
      obtain ⟨c, rest⟩ := cr
      simp only [parse, parse_one, hpk] at h
      have hrest := peek_byte_len hpk
      by_cases hc43 : c = 43
      · rw [if_pos hc43] at h
        cases hps : parse_string rest with
        | error e => simp [hps, Except.map] at h
        | ok sr =>
          obtain ⟨str, r⟩ := sr
          simp only [hps, Except.map, Option.some.injEq, Except.ok.injEq,
            Prod.mk.injEq] at h
          obtain ⟨-, rfl⟩ := h
          exact Nat.lt_trans (parse_string_len hps) hrest
      · rw [if_neg hc43] at h
        by_cases hc45 : c = 45
        · rw [if_pos hc45] at h
          cases hps : parse_string rest with
          | error e => simp [parse_error, hps, Except.map] at h
          | ok sr =>
            obtain ⟨str, r⟩ := sr
            simp only [parse_error, hps, Except.map, Option.some.injEq,
              Except.ok.injEq, Prod.mk.injEq] at h
            obtain ⟨-, rfl⟩ := h
            exact Nat.lt_trans (parse_string_len hps) hrest
        · rw [if_neg hc45] at h
          by_cases hc58 : c = 58
          · rw [if_pos hc58] at h
            cases hpi : parse_integer rest with
            | error e => simp [hpi, Except.map] at h
            | ok vr =>
              obtain ⟨w, r⟩ := vr
              simp only [hpi, Except.map, Option.some.injEq, Except.ok.injEq,
                Prod.mk.injEq] at h
              obtain ⟨-, rfl⟩ := h
              exact Nat.lt_trans (parse_integer_len hpi) hrest
          · rw [if_neg hc58] at h
            by_cases hc36 : c = 36
            · rw [if_pos hc36] at h
              cases hpb : parse_bulk rest with
              | error e => simp [hpb, Except.map] at h
              | ok pr =>
                obtain ⟨pl, r⟩ := pr
                simp only [hpb, Except.map, Option.some.injEq, Except.ok.injEq,
                  Prod.mk.injEq] at h
                obtain ⟨-, rfl⟩ := h
                exact Nat.lt_trans (parse_bulk_len hpb) hrest
            · rw [if_neg hc36] at h
              by_cases hc42 : c = 42
              · rw [if_pos hc42] at h
                cases hpi : parse_integer rest with
                | error e => simp [parse_array, hpi] at h
                | ok lr =>
                  obtain ⟨len, s1⟩ := lr
                  cases hgo : parse_array_go (parse fuel) len.toNat s1 with
                  | none => simp [parse_array, hpi, hgo] at h
                  | some r2 =>
                    cases r2 with
                    | error e => simp [parse_array, hpi, hgo] at h
                    | ok vt =>
                      obtain ⟨vs, s2⟩ := vt
                      simp only [parse_array, hpi, hgo, Option.some.injEq,
                        Except.ok.injEq, Prod.mk.injEq] at h
                      obtain ⟨-, rfl⟩ := h
                      have hgole := parse_array_go_le
                        (fun t v r hx => ih hx) hgo
                      have := parse_integer_len hpi
                      omega
              · rw [if_neg hc42] at h
                exact absurd h (by simp)

/-! ### Frame property: a successful parse ignores bytes after what it
consumed, so appending a suffix appends it untouched to the remainder -/

theorem peek_byte_frame {m : Bytes} {c : Nat} {r : Bytes}
    (h : peek_byte m = .ok (c, r)) (s : Bytes) :
    peek_byte (m ++ s) = .ok (c, r ++ s) := by
  cases m with
  | nil => simp [peek_byte] at h
  | cons b rest =>
    simp only [peek_byte, Except.ok.injEq, Prod.mk.injEq] at h
    obtain ⟨rfl, rfl⟩ := h
    rfl

theorem check_ending_frame {m r : Bytes} (h : check_ending m = .ok r)
    (s : Bytes) : check_ending (m ++ s) = .ok (r ++ s) := by
  cases m with
  | nil => simp [check_ending, peek_byte] at h
  | cons b rest =>
    simp only [check_ending, peek_byte] at h
    split at h
    · exact absurd h (by simp)
    · rename_i hb
      simp only [Except.ok.injEq] at h
      subst h
      rw [List.cons_append]
      simp only [check_ending, peek_byte]
      rw [if_neg hb]

theorem parse_string_go_frame :
    ∀ {m acc b r : Bytes}, parse_string_go acc m = .ok (b, r) →
      ∀ s, parse_string_go acc (m ++ s) = .ok (b, r ++ s) := by
  intro m
  induction m with
  | nil => intro acc b r h s; simp [parse_string_go] at h
  | cons c rest ih =>
    intro acc b r h s
    by_cases hc13 : c = 13
    · subst hc13
      cases hce : check_ending rest with
      | error e => simp [parse_string_go, hce] at h
      | ok r1 =>
        simp only [parse_string_go, hce, Except.ok.injEq, Prod.mk.injEq] at h
        obtain ⟨rfl, rfl⟩ := h
        rw [List.cons_append]
        simp only [parse_string_go, check_ending_frame hce s]
    · by_cases hc10 : c = 10
      · subst hc10; simp [parse_string_go] at h
      · rw [parse_string_go_cons _ _ _ hc13 hc10] at h
        rw [List.cons_append, parse_string_go_cons _ _ _ hc13 hc10]
        exact ih h s

theorem parse_string_frame {m : Bytes} {str : String} {r : Bytes}
    (h : parse_string m = .ok (str, r)) (s : Bytes) :
    parse_string (m ++ s) = .ok (str, r ++ s) := by
  cases hgo : parse_string_go [] m with
  | error e => simp [parse_string, hgo] at h
  | ok br =>
    obtain ⟨buf, rest⟩ := br
    cases hu : utf8Decode buf with
    | none => simp [parse_string, hgo, hu] at h
    | some cs =>
      simp only [parse_string, hgo, hu, Except.ok.injEq, Prod.mk.injEq] at h
      obtain ⟨rfl, rfl⟩ := h
      simp only [parse_string, parse_string_go_frame hgo s, hu]

theorem parse_integer_go_frame :
    ∀ {m acc b r : Bytes}, parse_integer_go acc m = .ok (b, r) →
      ∀ s, parse_integer_go acc (m ++ s) = .ok (b, r ++ s) := by
  intro m
  induction m with
  | nil => intro acc b r h s; simp [parse_integer_go] at h
  | cons c rest ih =>
    intro acc b r h s
    by_cases hc13 : c = 13
    · subst hc13
      cases hce : check_ending rest with
      | error e => simp [parse_integer_go, hce] at h
      | ok r1 =>
        simp only [parse_integer_go, hce, Except.ok.injEq, Prod.mk.injEq] at h
        obtain ⟨rfl, rfl⟩ := h
        rw [List.cons_append]
        simp only [parse_integer_go, check_ending_frame hce s]
    · rw [parse_integer_go_cons _ _ _ hc13] at h
      rw [List.cons_append, parse_integer_go_cons _ _ _ hc13]
      exact ih h s

theorem parse_integer_frame {m : Bytes} {v : Int} {r : Bytes}
    (h : parse_integer m = .ok (v, r)) (s : Bytes) :
    parse_integer (m ++ s) = .ok (v, r ++ s) := by
  cases hgo : parse_integer_go [] m with
  | error e => simp [parse_integer, hgo] at h
  | ok br =>
    obtain ⟨buf, rest⟩ := br
    cases hu : utf8Decode buf with
    | none => simp [parse_integer, hgo, hu] at h
    | some cs =>
      cases hp : parseI64 buf with
      | none => simp [parse_integer, hgo, hu, hp] at h
      | some w =>
        simp only [parse_integer, hgo, hu, hp, Except.ok.injEq,
          Prod.mk.injEq] at h
        obtain ⟨rfl, rfl⟩ := h
        simp only [parse_integer, parse_integer_go_frame hgo s, hu, hp]

theorem read_bytes_frame :
    ∀ {n : Nat} {m bs r : Bytes}, read_bytes n m = .ok (bs, r) →
      ∀ s, read_bytes n (m ++ s) = .ok (bs, r ++ s) := by
  intro n
  induction n with
  | zero =>
    intro m bs r h s
    simp only [read_bytes, Except.ok.injEq, Prod.mk.injEq] at h
    obtain ⟨rfl, rfl⟩ := h
    rfl
  | succ n ih =>
    intro m bs r h s
    cases m with
    | nil => simp [read_bytes, peek_byte] at h
    | cons b rest =>
      cases hrb : read_bytes n rest with
      | error e => simp [read_bytes, peek_byte, hrb] at h
      | ok cr =>
        obtain ⟨cs, rest1⟩ := cr
        simp only [read_bytes, peek_byte, hrb, Except.ok.injEq,
          Prod.mk.injEq] at h
        obtain ⟨rfl, rfl⟩ := h
        rw [List.cons_append]
        simp only [read_bytes, peek_byte, ih hrb s]

theorem parse_bulk_frame {m payload r : Bytes}
    (h : parse_bulk m = .ok (payload, r)) (s : Bytes) :
    parse_bulk (m ++ s) = .ok (payload, r ++ s) := by
  cases hint : parse_integer m with
  | error e => simp [parse_bulk, hint] at h
  | ok ls =>
    obtain ⟨len, s1⟩ := ls
    cases hrb : read_bytes len.toNat s1 with
    | error e => simp [parse_bulk, hint, hrb] at h
    | ok ps =>
      obtain ⟨pl, s2⟩ := ps
      cases hpk : peek_byte s2 with
      | error e => simp [parse_bulk, hint, hrb, hpk] at h
      | ok cr =>
        obtain ⟨c, s3⟩ := cr
        simp only [parse_bulk, hint, hrb, hpk] at h
        split at h
        · exact absurd h (by simp)
        · rename_i hc
          cases hce : check_ending s3 with
          | error e => rw [hce] at h; exact absurd h (by simp)
          | ok s4 =>
            rw [hce] at h
            simp only [Except.ok.injEq, Prod.mk.injEq] at h
            obtain ⟨rfl, rfl⟩ := h
            simp only [parse_bulk, parse_integer_frame hint s,
              read_bytes_frame hrb s, peek_byte_frame hpk s]
            rw [if_neg hc]
            simp only [check_ending_frame hce s]

theorem parse_array_go_frame
    {p : Bytes → Option (Except Error (Value × Bytes))}
    (hp : ∀ t v r s, p t = some (.ok (v, r)) → p (t ++ s) = some (.ok (v, r ++ s))) :
    ∀ {n : Nat} {m : Bytes} {vs : List Value} {r : Bytes},
      parse_array_go p n m = some (.ok (vs, r)) →
      ∀ s, parse_array_go p n (m ++ s) = some (.ok (vs, r ++ s)) := by
  intro n
  induction n with
  | zero =>
    intro m vs r h s
    simp only [parse_array_go, Option.some.injEq, Except.ok.injEq,
      Prod.mk.injEq] at h
    obtain ⟨rfl, rfl⟩ := h
    rfl
  | succ n ih =>
    intro m vs r h s
    cases hps : p m with
    | none => simp [parse_array_go, hps] at h
    | some r1 =>
      cases r1 with
      | error e => simp [parse_array_go, hps] at h
      | ok vr =>
        obtain ⟨v, m1⟩ := vr
        cases hgo : parse_array_go p n m1 with
        | none => simp [parse_array_go, hps, hgo] at h
        | some r2 =>
          cases r2 with
          | error e => simp [parse_array_go, hps, hgo] at h
          | ok vt =>
            obtain ⟨ws, m2⟩ := vt
            simp only [parse_array_go, hps, hgo, Option.some.injEq,
              Except.ok.injEq, Prod.mk.injEq] at h
            obtain ⟨rfl, rfl⟩ := h
            simp only [parse_array_go, hp _ _ _ s hps, ih hgo s]

theorem parse_frame :
    ∀ {fuel : Nat} {m : Bytes} {v : Value} {r : Bytes},
      parse fuel m = some (.ok (v, r)) →
      ∀ s, parse fuel (m ++ s) = some (.ok (v, r ++ s)) := by
  intro fuel
  induction fuel with
  | zero => intro m v r h s; simp [parse] at h
  | succ fuel ih =>
    intro m v r h s
    cases hpk : peek_byte m with
    | error e => simp [parse, parse_one, hpk] at h
    | ok cr =>
      obtain ⟨c, rest⟩ := cr
      simp only [parse, parse_one, hpk] at h
      simp only [parse, parse_one, peek_byte_frame hpk s]
      by_cases hc43 : c = 43
      · rw [if_pos hc43] at h ⊢
        cases hps : parse_string rest with
        | error e => simp [hps, Except.map] at h
        | ok sr =>
          obtain ⟨str, r1⟩ := sr
          simp only [hps, Except.map, Option.some.injEq, Except.ok.injEq,
            Prod.mk.injEq] at h
          obtain ⟨rfl, rfl⟩ := h
          simp only [parse_string_frame hps s, Except.map]
      · rw [if_neg hc43] at h ⊢
        by_cases hc45 : c = 45
        · rw [if_pos hc45] at h ⊢
          cases hps : parse_string rest with
          | error e => simp [parse_error, hps, Except.map] at h
          | ok sr =>
            obtain ⟨str, r1⟩ := sr
            simp only [parse_error, hps, Except.map, Option.some.injEq,
              Except.ok.injEq, Prod.mk.injEq] at h
            obtain ⟨rfl, rfl⟩ := h
            simp only [parse_error, parse_string_frame hps s, Except.map]
        · rw [if_neg hc45] at h ⊢
          by_cases hc58 : c = 58
          · rw [if_pos hc58] at h ⊢
            cases hpi : parse_integer rest with
            | error e => simp [hpi, Except.map] at h
            | ok vr =>
              obtain ⟨w, r1⟩ := vr
              simp only [hpi, Except.map, Option.some.injEq, Except.ok.injEq,
                Prod.mk.injEq] at h
              obtain ⟨rfl, rfl⟩ := h
              simp only [parse_integer_frame hpi s, Except.map]
          · rw [if_neg hc58] at h ⊢
            by_cases hc36 : c = 36
            · rw [if_pos hc36] at h ⊢
              cases hpb : parse_bulk rest with
              | error e => simp [hpb, Except.map] at h
              | ok pr =>
                obtain ⟨pl, r1⟩ := pr
                simp only [hpb, Except.map, Option.some.injEq, Except.ok.injEq,
                  Prod.mk.injEq] at h
                obtain ⟨rfl, rfl⟩ := h
                simp only [parse_bulk_frame hpb s, Except.map]
            · rw [if_neg hc36] at h ⊢
              by_cases hc42 : c = 42
              · rw [if_pos hc42] at h ⊢
                cases hpi : parse_integer rest with
                | error e => simp [parse_array, hpi] at h
                | ok lr =>
                  obtain ⟨len, s1⟩ := lr
                  cases hgo : parse_array_go (parse fuel) len.toNat s1 with
                  | none => simp [parse_array, hpi, hgo] at h
                  | some r2 =>
                    cases r2 with
                    | error e => simp [parse_array, hpi, hgo] at h
                    | ok vt =>
                      obtain ⟨vs, s2⟩ := vt
                      simp only [parse_array, hpi, hgo, Option.some.injEq,
                        Except.ok.injEq, Prod.mk.injEq] at h
                      obtain ⟨rfl, rfl⟩ := h
                      have hgo2 := parse_array_go_frame
                        (fun t v r s hx => ih hx s) hgo s
                      simp only [parse_array, parse_integer_frame hpi s, hgo2]
              · rw [if_neg hc42] at h ⊢
                exact absurd h (by simp)

/-! ### Fuel monotonicity and sufficiency -/

theorem parse_array_go_mono
    {p q : Bytes → Option (Except Error (Value × Bytes))}
    (hp : ∀ t r, p t = some r → q t = some r) :
    ∀ {n : Nat} {s : Bytes} {r}, parse_array_go p n s = some r →
      parse_array_go q n s = some r := by
  intro n
  induction n with
  | zero => intro s r h; simpa [parse_array_go] using h
  | succ n ih =>
    intro s r h
    cases hps : p s with
    | none => simp [parse_array_go, hps] at h
    | some r1 =>
      have hq := hp _ _ hps
      cases r1 with
      | error e =>
        simp only [parse_array_go, hps] at h
        simp only [parse_array_go, hq]
        exact h
      | ok vr =>
        obtain ⟨v, s1⟩ := vr
        cases hgo : parse_array_go p n s1 with
        | none => simp [parse_array_go, hps, hgo] at h
        | some r2 =>
          have hgo2 := ih hgo
          cases r2 with
          | error e =>
            simp only [parse_array_go, hps, hgo] at h
            simp only [parse_array_go, hq, hgo2]
            exact h
          | ok vt =>
            obtain ⟨ws, s2⟩ := vt
            simp only [parse_array_go, hps, hgo] at h
            simp only [parse_array_go, hq, hgo2]
            exact h

theorem parse_one_mono
    {p q : Bytes → Option (Except Error (Value × Bytes))}
    (hp : ∀ t r, p t = some r → q t = some r) {s : Bytes} {r}
    (h : parse_one p s = some r) : parse_one q s = some r := by
  cases hpk : peek_byte s with
  | error e =>
    simp only [parse_one, hpk] at h ⊢
    exact h
  | ok cr =>
    obtain ⟨c, rest⟩ := cr
    simp only [parse_one, hpk] at h ⊢
    by_cases hc43 : c = 43
    · rw [if_pos hc43] at h ⊢; exact h
    · rw [if_neg hc43] at h ⊢
      by_cases hc45 : c = 45
      · rw [if_pos hc45] at h ⊢; exact h
      · rw [if_neg hc45] at h ⊢
        by_cases hc58 : c = 58
        · rw [if_pos hc58] at h ⊢; exact h
        · rw [if_neg hc58] at h ⊢
          by_cases hc36 : c = 36
          · rw [if_pos hc36] at h ⊢; exact h
          · rw [if_neg hc36] at h ⊢
            by_cases hc42 : c = 42
            · rw [if_pos hc42] at h ⊢
              cases hpi : parse_integer rest with
              | error e =>
                simp only [parse_array, hpi] at h ⊢
                exact h
              | ok lr =>
                obtain ⟨len, s1⟩ := lr
                cases hgo : parse_array_go p len.toNat s1 with
                | none => simp [parse_array, hpi, hgo] at h
                | some r2 =>
                  have hgo2 := parse_array_go_mono hp hgo
                  cases r2 with
                  | error e =>
                    simp only [parse_array, hpi, hgo] at h
                    simp only [parse_array, hpi, hgo2]
                    exact h
                  | ok vt =>
                    obtain ⟨vs, s2⟩ := vt
                    simp only [parse_array, hpi, hgo] at h
                    simp only [parse_array, hpi, hgo2]
                    exact h
            · rw [if_neg hc42] at h ⊢; exact h

theorem parse_mono_succ :
    ∀ {fuel : Nat} {s : Bytes} {r}, parse fuel s = some r →
      parse (fuel + 1) s = some r := by
  intro fuel
  induction fuel with
  | zero => intro s r h; simp [parse] at h
  | succ fuel ih =>
    intro s r h
    rw [show parse (fuel + 1 + 1) s = parse_one (parse (fuel + 1)) s from rfl]
    rw [show parse (fuel + 1) s = parse_one (parse fuel) s from rfl] at h
    exact parse_one_mono (fun t r hx => ih hx) h

theorem parse_mono {fuel fuel' : Nat} (hle : fuel ≤ fuel') :
    ∀ {s : Bytes} {r}, parse fuel s = some r → parse fuel' s = some r := by
  induction hle with
  | refl => intro s r h; exact h
  | step hh ih => intro s r h; exact parse_mono_succ (ih h)

theorem parse_go_isSome {fuel : Nat}
    (hp : ∀ t : Bytes, t.length < fuel → (parse fuel t).isSome) :
    ∀ (n : Nat) (s : Bytes), s.length < fuel →
      (parse_array_go (parse fuel) n s).isSome := by
  intro n
  induction n with
  | zero => intro s hs; simp [parse_array_go]
  | succ n ih =>
    intro s hs
    cases hps : parse fuel s with
    | none =>
      have := hp s hs
      rw [hps] at this
      simp at this
    | some r1 =>
      cases r1 with
      | error e => simp [parse_array_go, hps]
      | ok vr =>
        obtain ⟨v, s1⟩ := vr
        have hs1 : s1.length < fuel := Nat.lt_trans (parse_len hps) hs
        have hgo := ih s1 hs1
        cases hgo2 : parse_array_go (parse fuel) n s1 with
        | none => rw [hgo2] at hgo; simp at hgo
        | some r2 =>
          cases r2 with
          | error e => simp [parse_array_go, hps, hgo2]
          | ok vt =>
            obtain ⟨vs, s2⟩ := vt
            simp [parse_array_go, hps, hgo2]

theorem parse_isSome :
    ∀ (fuel : Nat) (s : Bytes), s.length < fuel → (parse fuel s).isSome := by
  intro fuel
  induction fuel with
  | zero => intro s hs; exact absurd hs (Nat.not_lt_zero _)
  | succ fuel ih =>
    intro s hs
    rw [show parse (fuel + 1) s = parse_one (parse fuel) s from rfl]
    cases hpk : peek_byte s with
    | error e => simp [parse_one, hpk]
    | ok cr =>
      obtain ⟨c, rest⟩ := cr
      simp only [parse_one, hpk]
      have hrest := peek_byte_len hpk
      by_cases hc43 : c = 43
      · rw [if_pos hc43]; simp
      · rw [if_neg hc43]
        by_cases hc45 : c = 45
        · rw [if_pos hc45]; simp
        · rw [if_neg hc45]
          by_cases hc58 : c = 58
          · rw [if_pos hc58]; simp
          · rw [if_neg hc58]
            by_cases hc36 : c = 36
            · rw [if_pos hc36]; simp
            · rw [if_neg hc36]
              by_cases hc42 : c = 42
              · rw [if_pos hc42]
                cases hpi : parse_integer rest with
                | error e => simp [parse_array, hpi]
                | ok lr =>
                  obtain ⟨len, s1⟩ := lr
                  have hs1 : s1.length < fuel := by
                    have := parse_integer_len hpi
                    omega
                  have hgo := parse_go_isSome (fun t ht => ih t ht)
                    len.toNat s1 hs1
                  cases hgo2 : parse_array_go (parse fuel) len.toNat s1 with
                  | none => rw [hgo2] at hgo; simp at hgo
                  | some r2 =>
                    cases r2 with
                    | error e => simp [parse_array, hpi, hgo2]
                    | ok vt =>
                      obtain ⟨vs, s2⟩ := vt
                      simp [parse_array, hpi, hgo2]
              · rw [if_neg hc42]; simp

theorem parse_total_eq {fuel : Nat} {s : Bytes} {r}
    (h : parse fuel s = some r) : parse_total s = r := by
  rcases Nat.le_total fuel (s.length + 1) with hle | hle
  · have := parse_mono hle h
    simp [parse_total, this]
  · have h0 := parse_isSome (s.length + 1) s (Nat.lt_succ_self _)
    cases h1 : parse (s.length + 1) s with
    | none => rw [h1] at h0; simp at h0
    | some r0 =>
      have h2 := parse_mono hle h1
      rw [h2] at h
      simp only [Option.some.injEq] at h
      subst h
      simp [parse_total, h1]

theorem parse_total_run {fuel : Nat} {s : Bytes} (h : s.length < fuel) :
    parse fuel s = some (parse_total s) := by
  have h0 := parse_isSome fuel s h
  cases h1 : parse fuel s with
  | none => rw [h1] at h0; simp at h0
  | some r => rw [parse_total_eq h1]

theorem parse_total_frame {m : Bytes} {v : Value} {r : Bytes}
    (h : parse_total m = .ok (v, r)) (s : Bytes) :
    parse_total (m ++ s) = .ok (v, r ++ s) := by
  have h1 : parse (m.length + 1) m = some (.ok (v, r)) := by
    rw [parse_total_run (Nat.lt_succ_self _), h]
  exact parse_total_eq (parse_frame h1 s)

/-! ### Helper lemmas for the individual claims -/

theorem read_bytes_exact : ∀ (p t : Bytes), read_bytes p.length (p ++ t) = .ok (p, t) := by
  intro p
  induction p with
  | nil => intro t; rfl
  | cons b rest ih =>
    intro t
    simp only [List.length_cons, List.cons_append, read_bytes, peek_byte, ih t]

theorem parse_one_tag_string (p : Bytes → Option (Except Error (Value × Bytes)))
    (rest : Bytes) :
    parse_one p (43 :: rest) =
      some ((parse_string rest).map (fun r => (Value.string r.1, r.2))) := by
  simp [parse_one, peek_byte]

theorem parse_one_tag_error (p : Bytes → Option (Except Error (Value × Bytes)))
    (rest : Bytes) :
    parse_one p (45 :: rest) =
      some ((parse_error rest).map (fun r => (Value.string r.1, r.2))) := by
  simp [parse_one, peek_byte]

theorem parse_one_tag_integer (p : Bytes → Option (Except Error (Value × Bytes)))
    (rest : Bytes) :
    parse_one p (58 :: rest) =
      some ((parse_integer rest).map (fun r => (Value.integer r.1, r.2))) := by
  simp [parse_one, peek_byte]

theorem parse_one_tag_bulk (p : Bytes → Option (Except Error (Value × Bytes)))
    (rest : Bytes) :
    parse_one p (36 :: rest) =
      some ((parse_bulk rest).map (fun r => (Value.bulkString r.1, r.2))) := by
  simp [parse_one, peek_byte]

theorem parse_one_tag_other (p : Bytes → Option (Except Error (Value × Bytes)))
    (c : Nat) (rest : Bytes) (h43 : c ≠ 43) (h45 : c ≠ 45) (h58 : c ≠ 58)
    (h36 : c ≠ 36) (h42 : c ≠ 42) :
    parse_one p (c :: rest) =
      some (.error (.invalidValue (("Invalid character ") ++ Nat.repr c))) := by
  simp [parse_one, peek_byte, h43, h45, h58, h36, h42]

theorem parse_one_tag_array_ok
    {p : Bytes → Option (Except Error (Value × Bytes))} {rest : Bytes}
    {vs : List Value} {s2 : Bytes}
    (h : parse_array p rest = some (.ok (vs, s2))) :
    parse_one p (42 :: rest) = some (.ok (Value.array vs, s2)) := by
  simp [parse_one, peek_byte, h]

theorem parse_one_tag_array_err
    {p : Bytes → Option (Except Error (Value × Bytes))} {rest : Bytes}
    {e : Error} (h : parse_array p rest = some (.error e)) :
    parse_one p (42 :: rest) = some (.error e) := by
  simp [parse_one, peek_byte, h]

theorem parse_bulk_digits (ds p s : Bytes) (hne : ds ≠ [])
    (hd : ∀ d ∈ ds, isDigitByte d) (hlen : decimalVal ds = p.length)
    (hr : decimalVal ds < 2 ^ 63) :
    parse_bulk (ds ++ 13 :: 10 :: (p ++ 13 :: 10 :: s)) = .ok (p, s) := by
  have hint := parse_integer_digits ds (p ++ 13 :: 10 :: s) hne hd hr
  have hread : ((decimalVal ds : Int)).toNat = p.length := by
    rw [Int.toNat_natCast, hlen]
  simp only [parse_bulk, hint, hread, read_bytes_exact p (13 :: 10 :: s),
    peek_byte]
  rw [if_neg (by decide)]
  simp [check_ending, peek_byte]

theorem parse_bulk_neg (ds s : Bytes) (hne : ds ≠ [])
    (hd : ∀ d ∈ ds, isDigitByte d) (hr : decimalVal ds ≤ 2 ^ 63) :
    parse_bulk (45 :: ds ++ 13 :: 10 :: 13 :: 10 :: s) = .ok ([], s) := by
  have hint := parse_integer_neg_digits ds (13 :: 10 :: s) hne hd hr
  have htn : (-(decimalVal ds : Int)).toNat = 0 :=
    Int.toNat_of_nonpos (by omega)
  simp only [parse_bulk, hint, htn, read_bytes, peek_byte]
  rw [if_neg (by decide)]
  simp [check_ending, peek_byte]

theorem parse_bulk_neg_require_cr (ds s : Bytes) (c : Nat) (hne : ds ≠ [])
    (hd : ∀ d ∈ ds, isDigitByte d) (hr : decimalVal ds ≤ 2 ^ 63)
    (hc : c ≠ 13) :
    parse_bulk (45 :: ds ++ 13 :: 10 :: c :: s) =
      .error (.invalidValue ("Integer does not end with \\r\\n")) := by
  have hint := parse_integer_neg_digits ds (c :: s) hne hd hr
  have htn : (-(decimalVal ds : Int)).toNat = 0 :=
    Int.toNat_of_nonpos (by omega)
  simp only [parse_bulk, hint, htn, read_bytes, peek_byte]
  rw [if_pos hc]

theorem parse_bulk_neg_require_lf (ds s : Bytes) (c : Nat) (hne : ds ≠ [])
    (hd : ∀ d ∈ ds, isDigitByte d) (hr : decimalVal ds ≤ 2 ^ 63)
    (hc : c ≠ 10) :
    parse_bulk (45 :: ds ++ 13 :: 10 :: 13 :: c :: s) =
      .error (.invalidValue ("Integer does not end with \\r\\n")) := by
  have hint := parse_integer_neg_digits ds (13 :: c :: s) hne hd hr
  have htn : (-(decimalVal ds : Int)).toNat = 0 :=
    Int.toNat_of_nonpos (by omega)
  simp only [parse_bulk, hint, htn, read_bytes, peek_byte]
  rw [if_neg (by decide)]
  simp only [check_ending, peek_byte]
  rw [if_pos hc]

/-- One message decodes exactly to a value: success with empty remainder. -/
def decodes (m : Bytes) (v : Value) : Prop := parse_total m = .ok (v, [])

theorem parse_array_go_chunks {F : Nat} {chunks : List Bytes} {vs : List Value}
    (hall : List.Forall₂ decodes chunks vs) :
    ∀ (rest : Bytes) (m : Nat), (chunks.flatten ++ rest).length < F →
      parse_array_go (parse F) (chunks.length + m) (chunks.flatten ++ rest) =
        match parse_array_go (parse F) m rest with
        | some (.ok (ws, t)) => some (.ok (vs ++ ws, t))
        | other => other := by
  induction hall with
  | nil =>
    intro rest m hF
    simp only [List.length_nil, Nat.zero_add, List.flatten_nil, List.nil_append]
    cases hgo : parse_array_go (parse F) m rest with
    | none => rfl
    | some r =>
      cases r with
      | error e => rfl
      | ok wt =>
        obtain ⟨ws, t⟩ := wt
        simp
  | @cons mb v chunks' vs' h1 htail ih =>
    intro rest m hF
    have hjoin : (mb :: chunks').flatten = mb ++ chunks'.flatten := rfl
    rw [hjoin] at hF ⊢
    have hlen1 : ((mb ++ chunks'.flatten) ++ rest).length =
        mb.length + chunks'.flatten.length + rest.length := by
      simp only [List.length_append]
    have hlen2 : (chunks'.flatten ++ rest).length =
        chunks'.flatten.length + rest.length := by
      simp only [List.length_append]
    rw [show (mb :: chunks').length + m = (chunks'.length + m) + 1 by
      simp [List.length_cons]; omega]
    rw [List.append_assoc]
    have hmb : parse F (mb ++ (chunks'.flatten ++ rest)) =
        some (.ok (v, chunks'.flatten ++ rest)) := by
      have hrun : parse (mb.length + 1) mb = some (.ok (v, [])) := by
        rw [parse_total_run (Nat.lt_succ_self _), h1]
      have hfr := parse_frame hrun (chunks'.flatten ++ rest)
      rw [List.nil_append] at hfr
      refine parse_mono ?_ hfr
      omega
    have hle : (chunks'.flatten ++ rest).length < F := by omega
    have hih := ih rest m hle
    simp only [parse_array_go, hmb, hih]
    cases hgo : parse_array_go (parse F) m rest with
    | none => rfl
    | some r =>
      cases r with
      | error e => rfl
      | ok wt =>
        obtain ⟨ws, t⟩ := wt
        simp

theorem parse_integer_literal (bs s : Bytes) (h13 : ∀ x ∈ bs, x ≠ 13) :
    parse_integer (bs ++ 13 :: 10 :: s) =
      match utf8Decode bs with
      | none => .error (.invalidValue ("Non UTF-8 integer encoding"))
      | some cs =>
        match parseI64 bs with
        | none => .error (.invalidValue (cant_parse_msg (String.mk cs)))
        | some v => .ok (v, s) := by
  have hgo := parse_integer_go_app bs [] s h13
  rw [List.nil_append] at hgo
  simp only [parse_integer, hgo]

theorem parseI64Core_eq_some {sign : Int} {ds : Bytes} (hne : ds ≠ [])
    (hd : ∀ d ∈ ds, isDigitByte d)
    (hr : -(2 ^ 63) ≤ sign * (decimalVal ds : Int) ∧
      sign * (decimalVal ds : Int) ≤ 2 ^ 63 - 1) :
    parseI64Core sign ds = some (sign * (decimalVal ds : Int)) := by
  rw [parseI64Core, if_neg hne, if_pos hd, if_pos hr]

theorem parseI64_some_spec : ∀ {bs : Bytes} {v : Int}, parseI64 bs = some v →
    signed_digit_run bs ∧ v = literal_value bs ∧
      -(2 ^ 63) ≤ v ∧ v ≤ 2 ^ 63 - 1 := by
  intro bs v h
  cases bs with
  | nil => simp [parseI64, parseI64Core] at h
  | cons b ds =>
    by_cases hb45 : b = 45
    · subst hb45
      rw [show parseI64 (45 :: ds) = parseI64Core (-1) ds by simp [parseI64],
        parseI64Core] at h
      split at h
      · exact absurd h (by simp)
      · rename_i hne
        split at h
        · rename_i hd
          split at h
          · rename_i hr
            simp only [Option.some.injEq] at h
            subst h
            refine ⟨⟨ds, Or.inr (Or.inl rfl), hne, hd⟩, ?_, hr.1, hr.2⟩
            simp [literal_value]
          · exact absurd h (by simp)
        · exact absurd h (by simp)
    · by_cases hb43 : b = 43
      · subst hb43
        rw [show parseI64 (43 :: ds) = parseI64Core 1 ds by simp [parseI64],
          parseI64Core] at h
        split at h
        · exact absurd h (by simp)
        · rename_i hne
          split at h
          · rename_i hd
            split at h
            · rename_i hr
              simp only [Option.some.injEq] at h
              subst h
              refine ⟨⟨ds, Or.inr (Or.inr rfl), hne, hd⟩, ?_, hr.1, hr.2⟩
              simp [literal_value]
            · exact absurd h (by simp)
          · exact absurd h (by simp)
      · rw [show parseI64 (b :: ds) = parseI64Core 1 (b :: ds) by
          simp [parseI64, hb45, hb43], parseI64Core] at h
        split at h
        · rename_i hx
          exact absurd hx (by simp)
        · rename_i hne
          split at h
          · rename_i hd
            split at h
            · rename_i hr
              simp only [Option.some.injEq] at h
              subst h
              refine ⟨⟨b :: ds, Or.inl rfl, by simp, hd⟩, ?_, hr.1, hr.2⟩
              simp [literal_value, hb45, hb43]
            · exact absurd h (by simp)
          · exact absurd h (by simp)

theorem parseI64_of_grammar {bs : Bytes} (hg : signed_digit_run bs)
    (hlo : -(2 ^ 63) ≤ literal_value bs)
    (hhi : literal_value bs ≤ 2 ^ 63 - 1) :
    parseI64 bs = some (literal_value bs) := by
  obtain ⟨ds, hcase, hne, hd⟩ := hg
  rcases hcase with rfl | rfl | rfl
  · cases bs with
    | nil => exact absurd rfl hne
    | cons d ds =>
      obtain ⟨-, -, -, h45, h43⟩ := digit_byte_props (hd d (List.mem_cons_self d ds))
      have hlit : literal_value (d :: ds) = ((decimalVal (d :: ds) : Nat) : Int) := by
        simp [literal_value, h45, h43]
      rw [hlit] at hlo hhi
      rw [show parseI64 (d :: ds) = parseI64Core 1 (d :: ds) by
        simp [parseI64, h45, h43],
        parseI64Core_eq_some (by simp) hd (by constructor <;> omega), hlit]
      simp
  · have hlit : literal_value (45 :: ds) = -((decimalVal ds : Nat) : Int) := by
      simp [literal_value]
    rw [hlit] at hlo hhi
    rw [show parseI64 (45 :: ds) = parseI64Core (-1) ds by simp [parseI64],
      parseI64Core_eq_some hne hd (by constructor <;> omega), hlit]
    simp
  · have hlit : literal_value (43 :: ds) = ((decimalVal ds : Nat) : Int) := by
      simp [literal_value]
    rw [hlit] at hlo hhi
    rw [show parseI64 (43 :: ds) = parseI64Core 1 ds by simp [parseI64],
      parseI64Core_eq_some hne hd (by constructor <;> omega), hlit]
    simp

theorem parse_array_go_error_free {fuel : Nat}
    (hp : ∀ {s : Bytes} {v : Value} {t : Bytes},
      parse fuel s = some (.ok (v, t)) → ErrorFreeValue v) :
    ∀ {n : Nat} {s : Bytes} {vs : List Value} {t : Bytes},
      parse_array_go (parse fuel) n s = some (.ok (vs, t)) →
      ∀ v ∈ vs, ErrorFreeValue v := by
  intro n
  induction n with
  | zero =>
    intro s vs t h
    simp only [parse_array_go, Option.some.injEq, Except.ok.injEq,
      Prod.mk.injEq] at h
    obtain ⟨rfl, -⟩ := h
    intro v hv
    exact absurd hv (List.not_mem_nil v)
  | succ n ih =>
    intro s vs t h
    cases hps : parse fuel s with
    | none => simp [parse_array_go, hps] at h
    | some r1 =>
      cases r1 with
      | error e => simp [parse_array_go, hps] at h
      | ok vr =>
        obtain ⟨v, s1⟩ := vr
        cases hgo : parse_array_go (parse fuel) n s1 with
        | none => simp [parse_array_go, hps, hgo] at h
        | some r2 =>
          cases r2 with
          | error e => simp [parse_array_go, hps, hgo] at h
          | ok vt =>
            obtain ⟨ws, s2⟩ := vt
            simp only [parse_array_go, hps, hgo, Option.some.injEq,
              Except.ok.injEq, Prod.mk.injEq] at h
            obtain ⟨rfl, -⟩ := h
            intro w hw
            rcases List.mem_cons.mp hw with rfl | hw'
            · exact hp hps
            · exact ih hgo w hw'

theorem parse_error_free :
    ∀ {fuel : Nat} {s : Bytes} {v : Value} {t : Bytes},
      parse fuel s = some (.ok (v, t)) → ErrorFreeValue v := by
  intro fuel
  induction fuel with
  | zero => intro s v t h; simp [parse] at h
  | succ fuel ih =>
    intro s v t h
    cases hpk : peek_byte s with
    | error e => simp [parse, parse_one, hpk] at h
    | ok cr =>
      obtain ⟨c, rest⟩ := cr
      simp only [parse, parse_one, hpk] at h
      by_cases hc43 : c = 43
      · rw [if_pos hc43] at h
        cases hps : parse_string rest with
        | error e => simp [hps, Except.map] at h
        | ok sr =>
          obtain ⟨str, r⟩ := sr
          simp only [hps, Except.map, Option.some.injEq, Except.ok.injEq,
            Prod.mk.injEq] at h
          obtain ⟨rfl, -⟩ := h
          exact ErrorFreeValue.string str
      · rw [if_neg hc43] at h
        by_cases hc45 : c = 45
        · rw [if_pos hc45] at h
          cases hps : parse_string rest with
          | error e => simp [parse_error, hps, Except.map] at h
          | ok sr =>
            obtain ⟨str, r⟩ := sr
            simp only [parse_error, hps, Except.map, Option.some.injEq,
              Except.ok.injEq, Prod.mk.injEq] at h
            obtain ⟨rfl, -⟩ := h
            exact ErrorFreeValue.string str
        · rw [if_neg hc45] at h
          by_cases hc58 : c = 58
          · rw [if_pos hc58] at h
            cases hpi : parse_integer rest with
            | error e => simp [hpi, Except.map] at h
            | ok vr =>
              obtain ⟨w, r⟩ := vr
              simp only [hpi, Except.map, Option.some.injEq, Except.ok.injEq,
                Prod.mk.injEq] at h
              obtain ⟨rfl, -⟩ := h
              exact ErrorFreeValue.integer w
          · rw [if_neg hc58] at h
            by_cases hc36 : c = 36
            · rw [if_pos hc36] at h
              cases hpb : parse_bulk rest with
              | error e => simp [hpb, Except.map] at h
              | ok pr =>
                obtain ⟨pl, r⟩ := pr
                simp only [hpb, Except.map, Option.some.injEq, Except.ok.injEq,
                  Prod.mk.injEq] at h
                obtain ⟨rfl, -⟩ := h
                exact ErrorFreeValue.bulkString pl
            · rw [if_neg hc36] at h
              by_cases hc42 : c = 42
              · rw [if_pos hc42] at h
                cases hpi : parse_integer rest with
                | error e => simp [parse_array, hpi] at h
                | ok lr =>
                  obtain ⟨len, s1⟩ := lr
                  cases hgo : parse_array_go (parse fuel) len.toNat s1 with
                  | none => simp [parse_array, hpi, hgo] at h
                  | some r2 =>
                    cases r2 with
                    | error e => simp [parse_array, hpi, hgo] at h
                    | ok vt =>
                      obtain ⟨vs, s2⟩ := vt
                      simp only [parse_array, hpi, hgo, Option.some.injEq,
                        Except.ok.injEq, Prod.mk.injEq] at h
                      obtain ⟨rfl, -⟩ := h
                      exact ErrorFreeValue.array vs
                        (parse_array_go_error_free (fun hx => ih hx) hgo)
              · rw [if_neg hc42] at h
                exact absurd h (by simp)

/-! ### The claims -/

/-- C1: the spec says the `-` type tag wraps the scalar-string payload in the
`Error` variant, and the source declares `Value::Error` for RESP simple
errors; but line 125 of `parse` wraps `parse_error`'s result in
`Value::String`.  Evaluating the decoder at the well-formed simple-error
message `-Err\r\n` produces the String variant, exhibiting the slip. -/
theorem C1_error_tag_yields_string_variant :
    from_bytes (strBytes ("-Err\r\n")) = .ok (.string ("Err")) := by rfl

/-- C2 (amended): for every declared length whose decimal digit run `ds`
denotes a number at most `2^63 - 1` (the i64 range limit of the length
parser) and every payload `p` of exactly that length — `p` arbitrary,
including 13 and 10 bytes — decoding `$<ds>\r\n<p>\r\n` succeeds with
`BulkString p`, consuming nothing beyond the final `\r\n`. -/
theorem C2_bulk_exact_consumption (ds p s : Bytes) (hne : ds ≠ [])
    (hd : ∀ d ∈ ds, isDigitByte d) (hlen : decimalVal ds = p.length)
    (hr : decimalVal ds < 2 ^ 63) :
    parse_total (36 :: (ds ++ 13 :: 10 :: (p ++ 13 :: 10 :: s))) =
      .ok (.bulkString p, s) := by
  have hbulk := parse_bulk_digits ds p s hne hd hlen hr
  have hrun : parse 1 (36 :: (ds ++ 13 :: 10 :: (p ++ 13 :: 10 :: s))) =
      some (.ok (.bulkString p, s)) := by
    have hstep : parse 1 (36 :: (ds ++ 13 :: 10 :: (p ++ 13 :: 10 :: s))) =
        parse_one (parse 0) (36 :: (ds ++ 13 :: 10 :: (p ++ 13 :: 10 :: s))) := rfl
    rw [hstep, parse_one_tag_bulk, hbulk]
    rfl
  exact parse_total_eq hrun

/-- Witness for C2 at the concrete message `$4\r\nECHO\r\n`. -/
theorem C2_bulk_exact_consumption_witness :
    parse_total (36 :: ([52] ++ 13 :: 10 :: (strBytes ("ECHO") ++ 13 :: 10 :: []))) =
      .ok (.bulkString (strBytes ("ECHO")), []) :=
  C2_bulk_exact_consumption [52] (strBytes ("ECHO")) [] (by decide) (by decide)
    (by decide) (by decide)

/-- C2 counterexample: the claim as stated ranges over every N ≥ 0, but at
N = 2^63 the declared length `9223372036854775808` overflows i64, so the
decode of `$9223372036854775808\r\n` followed by 2^63 payload bytes and
`\r\n` fails with InvalidValue instead of succeeding with a BulkString of
length 2^63. -/
theorem C2_overflow_counterexample :
    (List.replicate (2 ^ 63) 48).length = 2 ^ 63 ∧
    ∃ m, parse_total (36 :: ([57, 50, 50, 51, 51, 55, 50, 48, 51, 54, 56, 53,
        52, 55, 55, 53, 56, 48, 56] ++ 13 :: 10 ::
        (List.replicate (2 ^ 63) 48 ++ 13 :: 10 :: []))) =
      .error (.invalidValue m) := by
  refine ⟨List.length_replicate _ _, ⟨cant_parse_msg ("9223372036854775808"), ?_⟩⟩
  have hint : parse_integer ([57, 50, 50, 51, 51, 55, 50, 48, 51, 54, 56, 53,
      52, 55, 55, 53, 56, 48, 56] ++ 13 :: 10 ::
      (List.replicate (2 ^ 63) 48 ++ 13 :: 10 :: [])) =
      .error (.invalidValue (cant_parse_msg ("9223372036854775808"))) := by
    rw [parse_integer_literal _ _ (by decide)]
    rfl
  have hbulk : parse_bulk ([57, 50, 50, 51, 51, 55, 50, 48, 51, 54, 56, 53,
      52, 55, 55, 53, 56, 48, 56] ++ 13 :: 10 ::
      (List.replicate (2 ^ 63) 48 ++ 13 :: 10 :: [])) =
      .error (.invalidValue (cant_parse_msg ("9223372036854775808"))) := by
    simp only [parse_bulk, hint]
  have hrun : parse 1 (36 :: ([57, 50, 50, 51, 51, 55, 50, 48, 51, 54, 56, 53,
      52, 55, 55, 53, 56, 48, 56] ++ 13 :: 10 ::
      (List.replicate (2 ^ 63) 48 ++ 13 :: 10 :: []))) =
      some (.error (.invalidValue (cant_parse_msg ("9223372036854775808")))) := by
    have hstep : parse 1 (36 :: ([57, 50, 50, 51, 51, 55, 50, 48, 51, 54, 56,
        53, 52, 55, 55, 53, 56, 48, 56] ++ 13 :: 10 ::
        (List.replicate (2 ^ 63) 48 ++ 13 :: 10 :: []))) =
        parse_one (parse 0) (36 :: ([57, 50, 50, 51, 51, 55, 50, 48, 51, 54,
        56, 53, 52, 55, 55, 53, 56, 48, 56] ++ 13 :: 10 ::
        (List.replicate (2 ^ 63) 48 ++ 13 :: 10 :: []))) := rfl
    rw [hstep, parse_one_tag_bulk, hbulk]
    rfl
  exact parse_total_eq hrun

/-- C3: the bulk routine accepts any negative declared length `-<ds>`:
`for _ in 0..N` with N < 0 runs zero iterations, so zero payload bytes are
read and the terminator `\r\n` must follow immediately; `$-1\r\n\r\n`
decodes to the empty BulkString with no InvalidValue rejection. -/
theorem C3_negative_bulk_length :
    (∀ ds s, ds ≠ [] → (∀ d ∈ ds, isDigitByte d) → 0 < decimalVal ds →
      decimalVal ds ≤ 2 ^ 63 →
      parse_bulk (45 :: ds ++ 13 :: 10 :: 13 :: 10 :: s) = .ok ([], s)) ∧
    (∀ ds s c, ds ≠ [] → (∀ d ∈ ds, isDigitByte d) → 0 < decimalVal ds →
      decimalVal ds ≤ 2 ^ 63 → c ≠ 13 →
      parse_bulk (45 :: ds ++ 13 :: 10 :: c :: s) =
        .error (.invalidValue ("Integer does not end with \\r\\n"))) ∧
    (∀ ds s c, ds ≠ [] → (∀ d ∈ ds, isDigitByte d) → 0 < decimalVal ds →
      decimalVal ds ≤ 2 ^ 63 → c ≠ 10 →
      parse_bulk (45 :: ds ++ 13 :: 10 :: 13 :: c :: s) =
        .error (.invalidValue ("Integer does not end with \\r\\n"))) ∧
    from_bytes (strBytes ("$-1\r\n\r\n")) = .ok (.bulkString []) := by
  refine ⟨?_, ?_, ?_, by rfl⟩
  · intro ds s hne hd hpos hr
    exact parse_bulk_neg ds s hne hd hr
  · intro ds s c hne hd hpos hr hc
    exact parse_bulk_neg_require_cr ds s c hne hd hr hc
  · intro ds s c hne hd hpos hr hc
    exact parse_bulk_neg_require_lf ds s c hne hd hr hc

/-- Witness for C3 at `$-1\r\n\r\n` (success) and `$-1\r\nA` (missing
terminator). -/
theorem C3_negative_bulk_length_witness :
    parse_bulk (45 :: [49] ++ 13 :: 10 :: 13 :: 10 :: []) = .ok ([], []) ∧
    parse_bulk (45 :: [49] ++ 13 :: 10 :: 65 :: []) =
      .error (.invalidValue ("Integer does not end with \\r\\n")) :=
  ⟨C3_negative_bulk_length.1 [49] [] (by decide) (by decide) (by decide)
      (by decide),
    C3_negative_bulk_length.2.1 [49] [] 65 (by decide) (by decide) (by decide)
      (by decide) (by decide)⟩

/-- C4: decoding reads exactly one message and no byte beyond its
terminator: if `m` decodes to `v` leaving remainder `r`, then `m ++ s`
decodes to the same `v` leaving `r ++ s`; in particular when `m` is exactly
one message (`r = []`) the source is left positioned at the first byte of
`s`, and the decoded value is unchanged. -/
theorem C4_decode_frame (m s : Bytes) (v : Value) (r : Bytes)
    (h : parse_total m = .ok (v, r)) :
    parse_total (m ++ s) = .ok (v, r ++ s) ∧ from_bytes (m ++ s) = .ok v := by
  have h2 := parse_total_frame h s
  refine ⟨h2, ?_⟩
  rw [from_bytes, from_stream, h2]
  rfl

/-- Witness for C4: `:1\r\n` followed by the stray byte `X`. -/
theorem C4_decode_frame_witness :
    parse_total (strBytes (":1\r\n") ++ [88]) = .ok (.integer 1, [88]) ∧
    from_bytes (strBytes (":1\r\n") ++ [88]) = .ok (.integer 1) := by
  exact C4_decode_frame (strBytes (":1\r\n")) [88] (.integer 1) [] (by rfl)

/-- C5 (amended): a terminated integer literal is accepted exactly when it
is an optional leading sign byte — `-` (45) or also `+` (43), which Rust's
`str::parse::<i64>` accepts as well — followed by at least one decimal
digit, with the signed value in the i64 range; every other buffer (empty,
overflowing, or containing any other non-digit byte) fails with
InvalidValue. -/
theorem C5_integer_literal_grammar (bs s : Bytes)
    (h13 : ∀ x ∈ bs, x ≠ 13) :
    ((∃ v, parse_integer (bs ++ 13 :: 10 :: s) = .ok (v, s)) ↔
      (signed_digit_run bs ∧ -(2 ^ 63) ≤ literal_value bs ∧
        literal_value bs ≤ 2 ^ 63 - 1)) ∧
    (¬(signed_digit_run bs ∧ -(2 ^ 63) ≤ literal_value bs ∧
        literal_value bs ≤ 2 ^ 63 - 1) →
      ∃ m, parse_integer (bs ++ 13 :: 10 :: s) = .error (.invalidValue m)) := by
  rw [parse_integer_literal bs s h13]
  constructor
  · constructor
    · rintro ⟨v, hv⟩
      cases hu : utf8Decode bs with
      | none => simp [hu] at hv
      | some cs =>
        cases hp : parseI64 bs with
        | none => simp [hu, hp] at hv
        | some w =>
          simp only [hu, hp, Except.ok.injEq, Prod.mk.injEq] at hv
          obtain ⟨rfl, -⟩ := hv
          obtain ⟨hg, hlit, hlo, hhi⟩ := parseI64_some_spec hp
          exact ⟨hg, hlit ▸ hlo, hlit ▸ hhi⟩
    · rintro ⟨hg, hlo, hhi⟩
      have hp := parseI64_of_grammar hg hlo hhi
      have hascii : ∀ x ∈ bs, x < 128 := by
        obtain ⟨ds, hcase, hne, hd⟩ := hg
        intro x hx
        rcases hcase with rfl | rfl | rfl
        · exact (digit_byte_props (hd x hx)).1
        · rcases List.mem_cons.mp hx with rfl | hx'
          · omega
          · exact (digit_byte_props (hd x hx')).1
        · rcases List.mem_cons.mp hx with rfl | hx'
          · omega
          · exact (digit_byte_props (hd x hx')).1
      obtain ⟨cs, hcs⟩ := utf8Decode_isSome_of_ascii bs hascii
      exact ⟨literal_value bs, by simp only [hcs, hp]⟩
  · intro hn
    cases hu : utf8Decode bs with
    | none => exact ⟨("Non UTF-8 integer encoding"), by simp only [hu]⟩
    | some cs =>
      cases hp : parseI64 bs with
      | none => exact ⟨cant_parse_msg (String.mk cs), by simp only [hu, hp]⟩
      | some w =>
        obtain ⟨hg, hlit, hlo, hhi⟩ := parseI64_some_spec hp
        exact absurd ⟨hg, hlit ▸ hlo, hlit ▸ hhi⟩ hn

/-- Witness for C5: the literal `5` is accepted, the literal `r` is
rejected with InvalidValue. -/
theorem C5_integer_literal_grammar_witness :
    (∃ v, parse_integer ([53] ++ 13 :: 10 :: []) = .ok (v, [])) ∧
    (∃ m, parse_integer ([114] ++ 13 :: 10 :: []) =
      .error (.invalidValue m)) := by
  constructor
  · exact (C5_integer_literal_grammar [53] [] (by decide)).1.mpr
      ⟨⟨[53], Or.inl rfl, by decide, by decide⟩, by decide, by decide⟩
  · refine (C5_integer_literal_grammar [114] [] (by decide)).2 ?_
    rintro ⟨⟨ds, hcase, hne, hd⟩, -, -⟩
    rcases hcase with h | h | h
    · subst h
      exact absurd (hd 114 (by simp)) (by decide)
    · simp at h
    · simp at h

/-- C5 counterexample: the buffer `+5` contains the byte `+` (43), which is
neither a decimal digit nor the leading `-` the claim allows, yet the
decimal-integer routine accepts it and returns 5 instead of failing with
InvalidValue. -/
theorem C5_plus_sign_counterexample :
    parse_integer ([43, 53] ++ 13 :: 10 :: []) = .ok (5, []) ∧
    ¬isDigitByte 43 ∧ 43 ≠ 45 ∧ (∀ x ∈ ([43, 53] : Bytes), x ≠ 13) := by
  refine ⟨by decide, by decide, by decide, by decide⟩

/-- C6: the four integer boundary cases: `0\r\n` parses to 0 (and `:0\r\n`
decodes to Integer 0), `-1234567890\r\n` parses to -1234567890, `r\r\n`
fails with InvalidValue, and `8122\r` with the stream ending fails with
EndOfStream. -/
theorem C6_integer_boundary :
    parse_integer (strBytes ("0\r\n")) = .ok (0, []) ∧
    from_bytes (strBytes (":0\r\n")) = .ok (.integer 0) ∧
    parse_integer (strBytes ("-1234567890\r\n")) = .ok (-1234567890, []) ∧
    parse_integer (strBytes ("r\r\n")) =
      .error (.invalidValue (cant_parse_msg ("r"))) ∧
    parse_integer (strBytes ("8122\r")) = .error .endOfStream := by
  exact ⟨by decide, by rfl, by decide, by decide, by decide⟩

/-- C7: `+OK\r\n` decodes to String "OK"; in the scalar-string routine a
bare `\n` before any `\r` fails with InvalidValue, a `\r` not followed by
`\n` fails with InvalidValue, and a buffer that is not valid UTF-8 fails
with InvalidValue. -/
theorem C7_simple_string :
    from_bytes (strBytes ("+OK\r\n")) = .ok (.string ("OK")) ∧
    (∀ b s, (∀ x ∈ b, x ≠ 13 ∧ x ≠ 10) →
      parse_string (b ++ 10 :: s) =
        .error (.invalidValue ("String contain \\n"))) ∧
    (∀ b s c, (∀ x ∈ b, x ≠ 13 ∧ x ≠ 10) → c ≠ 10 →
      parse_string (b ++ 13 :: c :: s) =
        .error (.invalidValue ("Integer does not end with \\r\\n"))) ∧
    (∀ b s, (∀ x ∈ b, x ≠ 13 ∧ x ≠ 10) → utf8Decode b = none →
      parse_string (b ++ 13 :: 10 :: s) =
        .error (.invalidValue ("Non UTF-8 integer encoding"))) := by
  refine ⟨by rfl, ?_, ?_, ?_⟩
  · intro b s h
    simp only [parse_string, parse_string_go_newline b [] s h]
  · intro b s c h hc
    simp only [parse_string, parse_string_go_badcr b [] s c hc h]
  · intro b s h hu
    have happ := parse_string_go_app b [] s h
    rw [List.nil_append] at happ
    simp only [parse_string, happ, hu]

/-- Witness for C7 at the malformed inputs `\n`, `\rA`, and `\xFF\r\n`. -/
theorem C7_simple_string_witness :
    parse_string ([] ++ 10 :: []) =
      .error (.invalidValue ("String contain \\n")) ∧
    parse_string ([] ++ 13 :: 65 :: []) =
      .error (.invalidValue ("Integer does not end with \\r\\n")) ∧
    parse_string ([255] ++ 13 :: 10 :: []) =
      .error (.invalidValue ("Non UTF-8 integer encoding")) :=
  ⟨C7_simple_string.2.1 [] [] (by decide),
    C7_simple_string.2.2.1 [] [] 65 (by decide) (by decide),
    C7_simple_string.2.2.2 [255] [] (by decide) (by decide)⟩

/-- C8: an array `*<ds>\r\n` followed by exactly that many complete
well-formed element messages decodes to the Array of their values in read
order; the concrete input `*2\r\n$4\r\nECHO\r\n$3\r\nhey\r\n` decodes to
`Array [BulkString "ECHO", BulkString "hey"]`; and when fewer elements are
supplied and decoding the remaining stream fails, that element error is the
result of the whole decode (no partial Array). -/
theorem C8_array_decode :
    (∀ ds (chunks : List Bytes) (vs : List Value) s, ds ≠ [] →
      (∀ d ∈ ds, isDigitByte d) → decimalVal ds = chunks.length →
      decimalVal ds < 2 ^ 63 → List.Forall₂ decodes chunks vs →
      parse_total (42 :: (ds ++ 13 :: 10 :: (chunks.flatten ++ s))) =
        .ok (.array vs, s)) ∧
    from_string ("*2\r\n$4\r\nECHO\r\n$3\r\nhey\r\n") =
      .ok (.array [.bulkString (strBytes ("ECHO")),
        .bulkString (strBytes ("hey"))]) ∧
    (∀ ds (chunks : List Bytes) (vs : List Value) rest e, ds ≠ [] →
      (∀ d ∈ ds, isDigitByte d) → chunks.length < decimalVal ds →
      decimalVal ds < 2 ^ 63 → List.Forall₂ decodes chunks vs →
      parse_total rest = .error e →
      parse_total (42 :: (ds ++ 13 :: 10 :: (chunks.flatten ++ rest))) =
        .error e) := by
  refine ⟨?_, by rfl, ?_⟩
  · intro ds chunks vs s hne hd hlen hr hall
    have hint := parse_integer_digits ds (chunks.flatten ++ s) hne hd hr
    have hgo := parse_array_go_chunks hall s 0 (Nat.lt_succ_self _)
    simp only [Nat.add_zero, parse_array_go, List.append_nil] at hgo
    have harr : parse_array (parse ((chunks.flatten ++ s).length + 1))
        (ds ++ 13 :: 10 :: (chunks.flatten ++ s)) = some (.ok (vs, s)) := by
      simp only [parse_array, hint, Int.toNat_natCast, hlen, hgo]
    have hrun : parse ((chunks.flatten ++ s).length + 1 + 1)
        (42 :: (ds ++ 13 :: 10 :: (chunks.flatten ++ s))) =
        some (.ok (.array vs, s)) := by
      have hstep : parse ((chunks.flatten ++ s).length + 1 + 1)
          (42 :: (ds ++ 13 :: 10 :: (chunks.flatten ++ s))) =
          parse_one (parse ((chunks.flatten ++ s).length + 1))
            (42 :: (ds ++ 13 :: 10 :: (chunks.flatten ++ s))) := rfl
      rw [hstep]
      exact parse_one_tag_array_ok harr
    exact parse_total_eq hrun
  · intro ds chunks vs rest e hne hd hlt hr hall hrest
    have hint := parse_integer_digits ds (chunks.flatten ++ rest) hne hd hr
    have hsplit : decimalVal ds =
        chunks.length + ((decimalVal ds - chunks.length - 1) + 1) := by omega
    have hgo := parse_array_go_chunks hall rest
      ((decimalVal ds - chunks.length - 1) + 1) (Nat.lt_succ_self _)
    have hpr0 : parse (rest.length + 1) rest = some (.error e) := by
      rw [parse_total_run (Nat.lt_succ_self _), hrest]
    have hpr : parse ((chunks.flatten ++ rest).length + 1) rest =
        some (.error e) := by
      refine parse_mono ?_ hpr0
      simp only [List.length_append]
      omega
    have hone : parse_array_go (parse ((chunks.flatten ++ rest).length + 1))
        ((decimalVal ds - chunks.length - 1) + 1) rest = some (.error e) := by
      simp only [parse_array_go, hpr]
    simp only [hone] at hgo
    have harr : parse_array (parse ((chunks.flatten ++ rest).length + 1))
        (ds ++ 13 :: 10 :: (chunks.flatten ++ rest)) = some (.error e) := by
      simp only [parse_array, hint, Int.toNat_natCast]
      rw [hsplit]
      exact hgo
    have hrun : parse ((chunks.flatten ++ rest).length + 1 + 1)
        (42 :: (ds ++ 13 :: 10 :: (chunks.flatten ++ rest))) =
        some (.error e) := by
      have hstep : parse ((chunks.flatten ++ rest).length + 1 + 1)
          (42 :: (ds ++ 13 :: 10 :: (chunks.flatten ++ rest))) =
          parse_one (parse ((chunks.flatten ++ rest).length + 1))
            (42 :: (ds ++ 13 :: 10 :: (chunks.flatten ++ rest))) := rfl
      rw [hstep]
      exact parse_one_tag_array_err harr
    exact parse_total_eq hrun

/-- Witness for C8: `*1\r\n:1\r\n` decodes to `Array [Integer 1]`. -/
theorem C8_array_decode_witness :
    parse_total (42 :: ([49] ++ 13 :: 10 ::
        (([strBytes (":1\r\n")]).flatten ++ []))) =
      .ok (.array [.integer 1], []) :=
  C8_array_decode.1 [49] [strBytes (":1\r\n")] [.integer 1] [] (by decide)
    (by decide) (by decide) (by decide)
    (List.Forall₂.cons (show decodes (strBytes (":1\r\n")) (.integer 1) from rfl)
      List.Forall₂.nil)

/-- C9: any first byte outside the five type tags fails every entry point
with InvalidValue whose detail prints that byte in decimal, and every entry
point on an empty source fails with EndOfStream. -/
theorem C9_unknown_tag_empty :
    (∀ c rest, c ≠ 43 → c ≠ 45 → c ≠ 58 → c ≠ 36 → c ≠ 42 →
      from_bytes (c :: rest) =
        .error (.invalidValue (("Invalid character ") ++ Nat.repr c))) ∧
    (∀ c rest, c ≠ 43 → c ≠ 45 → c ≠ 58 → c ≠ 36 → c ≠ 42 →
      from_stream (c :: rest) =
        .error (.invalidValue (("Invalid character ") ++ Nat.repr c))) ∧
    from_stream [] = .error .endOfStream ∧
    from_bytes [] = .error .endOfStream ∧
    from_string ("") = .error .endOfStream := by
  have hmain : ∀ c rest, c ≠ 43 → c ≠ 45 → c ≠ 58 → c ≠ 36 → c ≠ 42 →
      from_stream (c :: rest) =
        .error (.invalidValue (("Invalid character ") ++ Nat.repr c)) := by
    intro c rest h43 h45 h58 h36 h42
    have hrun : parse 1 (c :: rest) =
        some (.error (.invalidValue (("Invalid character ") ++ Nat.repr c))) := by
      have hstep : parse 1 (c :: rest) = parse_one (parse 0) (c :: rest) := rfl
      rw [hstep, parse_one_tag_other (parse 0) c rest h43 h45 h58 h36 h42]
    rw [from_stream, parse_total_eq hrun]
    rfl
  exact ⟨fun c rest h1 h2 h3 h4 h5 => hmain c rest h1 h2 h3 h4 h5, hmain,
    by rfl, by rfl, by rfl⟩

/-- Witness for C9 at the unknown tag byte 33 (`!`). -/
theorem C9_unknown_tag_empty_witness :
    from_bytes [33] =
      .error (.invalidValue (("Invalid character ") ++ Nat.repr 33)) :=
  C9_unknown_tag_empty.1 33 [] (by decide) (by decide) (by decide) (by decide)
    (by decide)

/-- C10: a successfully decoded value tree never contains the Error variant
at any nesting level, for any of the three entry points: both the `+` and
the `-` tag build `Value.string`, so `Value.error` is unreachable as decoder
output. -/
theorem C10_no_error_variant :
    (∀ s v, from_stream s = .ok v → ErrorFreeValue v) ∧
    (∀ s v, from_bytes s = .ok v → ErrorFreeValue v) ∧
    (∀ t v, from_string t = .ok v → ErrorFreeValue v) := by
  have hmain : ∀ s v, from_stream s = .ok v → ErrorFreeValue v := by
    intro s v h
    rw [from_stream] at h
    cases ht : parse_total s with
    | error e => rw [ht] at h; simp [Except.map] at h
    | ok vr =>
      obtain ⟨w, t⟩ := vr
      rw [ht] at h
      simp only [Except.map, Except.ok.injEq] at h
      subst h
      have hrun : parse (s.length + 1) s = some (.ok (w, t)) := by
        rw [parse_total_run (Nat.lt_succ_self _), ht]
      exact parse_error_free hrun
  exact ⟨hmain, fun s v h => hmain s v h, fun t v h => hmain _ v h⟩

/-- Witness for C10: the decode of `:1\r\n` is error-free. -/
theorem C10_no_error_variant_witness : ErrorFreeValue (Value.integer 1) :=
  C10_no_error_variant.1 (strBytes (":1\r\n")) (Value.integer 1) (by rfl)


end Resp
